import Mathlib

/-!
Verification of the EZ-USB firmware loader (libusb examples/ezusb.c).

Shallow embedding conventions:
- machine integers are modelled as `Nat` (addresses, sizes) and `Int`
  (C `int` return codes); overflow is made explicit with `% 2^w` where the
  C arithmetic can wrap;
- the USB transport (libusb_control_transfer) is modelled by the status
  value it returns: a nonnegative status is the transferred byte count, a
  negative status is a libusb error code;
- fallible reads from a byte stream return `Option`.
-/

namespace Ezusb

/-- errno value EIO (5 on both macOS and Linux); ezusb.c returns `-EIO`. -/
def Eio : Int := 5

/-- errno value EINVAL (22); `ram_poke` returns `-EINVAL` on a contract violation. -/
def EINVAL : Int := 22

/-- errno value EDOM (33); `ram_poke` returns `-EDOM` on an undefined mode. -/
def EDOM : Int := 33

/-- libusb 1.0 API error code LIBUSB_ERROR_IO (libusb.h, enum libusb_error). -/
def LibusbErrorIo : Int := -1

/-- libusb 1.0 API error code LIBUSB_ERROR_TIMEOUT (libusb.h, enum libusb_error). -/
def LIBUSB_ERROR_TIMEOUT : Int := -7

/-- fx_is_external (ezusb.c lines 56-69): true when [addr, addr+len) touches
external RAM for AnchorChips EZ-USB / Cypress EZ-USB FX. -/
def fx_is_external (addr len : Nat) : Bool :=
  if addr ≤ 0x1b3f then decide (addr + len > 0x1b40)
  else true

/-- fx2_is_external (ezusb.c lines 75-88): true when [addr, addr+len) touches
external RAM for Cypress EZ-USB FX2. -/
def fx2_is_external (addr len : Nat) : Bool :=
  if addr ≤ 0x1fff then decide (addr + len > 0x2000)
  else if 0xe000 ≤ addr ∧ addr ≤ 0xe1ff then decide (addr + len > 0xe200)
  else true

/-- fx2lp_is_external (ezusb.c lines 94-107): as FX2 with a 16KB code/data area. -/
def fx2lp_is_external (addr len : Nat) : Bool :=
  if addr ≤ 0x3fff then decide (addr + len > 0x4000)
  else if 0xe000 ≤ addr ∧ addr ≤ 0xe1ff then decide (addr + len > 0xe200)
  else true

/-- ezusb_write (ezusb.c lines 125-143). `status` is what
libusb_control_transfer returned, `len` the requested length. A status
different from `len` is only logged; the return value depends on the sign
of `status` alone: `-Eio` for a negative status, `0` otherwise. -/
def ezusb_write (status : Int) (len : Nat) : Int :=
  if status < 0 then -Eio else 0

/-- ezusb_read (ezusb.c lines 148-166): identical result logic to ezusb_write. -/
def ezusb_read (status : Int) (len : Nat) : Int :=
  if status < 0 then -Eio else 0

/-- ezusb_cpucs (ezusb.c lines 172-195). `status` is the control-transfer
status of the single-byte CPUCS write, `doRun` selects run (write 0) vs
halt (write 1). Returns false exactly when `status != 1` and we are not in
the tolerated run/LibusbErrorIo case. -/
def ezusb_cpucs (status : Int) (doRun : Bool) : Bool :=
  if status ≠ 1 ∧ (¬doRun ∨ status ≠ LibusbErrorIo) then false else true

/-- ezusb_fx3_jump (ezusb.c lines 201-222): zero-length vendor write; an
LibusbErrorIo status is tolerated, any other nonzero status fails. -/
def ezusb_fx3_jump (status : Int) : Bool :=
  if status ≠ 0 ∧ status ≠ LibusbErrorIo then false else true

/-- ram_mode (ezusb.c lines 490-495). -/
inductive RamMode
  | undef
  | internal_only
  | skip_internal
  | skip_external
  deriving DecidableEq, Repr

/-- ram_poke_context (ezusb.c lines 497-501): the device handle is left to
the transport model; `total` and `count` are the running byte/segment
counters. -/
structure RamPokeContext where
  mode : RamMode
  total : Nat
  count : Nat
  deriving DecidableEq, Repr

/-- RETRY_LIMIT (ezusb.c line 503). -/
def RETRY_LIMIT : Nat := 5

/-- retry loop of ram_poke (ezusb.c lines 550-558). `transport i` is the
libusb status of the i-th control transfer of this poke; each loop pass
calls ezusb_write once. `retriesLeft` is RETRY_LIMIT minus the C `retry`
counter, so the loop guard `retry < RETRY_LIMIT` becomes `0 < retriesLeft`.
Returns the final rc together with the number of transfer attempts made
(callIdx starts at 0). -/
def ram_poke_loop (transport : Nat → Int) (len : Nat) :
    Nat → Nat → Int × Nat
  | callIdx, 0 =>
    let rc := ezusb_write (transport callIdx) len
    (rc, callIdx + 1)
  | callIdx, retriesLeft + 1 =>
    let rc := ezusb_write (transport callIdx) len
    if rc < 0 then
      if rc ≠ LIBUSB_ERROR_TIMEOUT then (rc, callIdx + 1)
      else ram_poke_loop transport len (callIdx + 1) retriesLeft
    else (rc, callIdx + 1)

/-- write phase of ram_poke (ezusb.c lines 544-559): the counters are
updated before the write loop runs. -/
def ram_poke_write (ctx : RamPokeContext) (external : Bool) (len : Nat)
    (transport : Nat → Int) : Int × RamPokeContext × Nat :=
  let ctx' : RamPokeContext :=
    { ctx with total := ctx.total + len, count := ctx.count + 1 }
  let r := ram_poke_loop transport len 0 RETRY_LIMIT
  (r.1, ctx', r.2)

/-- ram_poke (ezusb.c lines 505-560). Result is (rc, updated context,
number of transport calls made). `external` marks where the segment lives,
`len` its byte length; the data bytes themselves do not influence control
flow and are not modelled. -/
def ram_poke (ctx : RamPokeContext) (addr : Nat) (external : Bool) (len : Nat)
    (transport : Nat → Int) : Int × RamPokeContext × Nat :=
  match ctx.mode with
  | .internal_only =>
      if external then (-EINVAL, ctx, 0)
      else ram_poke_write ctx external len transport
  | .skip_internal =>
      if ¬external then (0, ctx, 0)
      else ram_poke_write ctx external len transport
  | .skip_external =>
      if external then (0, ctx, 0)
      else ram_poke_write ctx external len transport
  | .undef => (-EDOM, ctx, 0)

/-- identity of the three image parsers of ezusb.c. -/
inductive ParserId
  | ihex
  | iic
  | bin
  deriving DecidableEq, Repr

/-- parse dispatch table (ezusb.c lines 480-482): declared with
IMG_TYPE_MAX = 4 slots but only three initializers { parse_ihex, parse_iic,
parse_bin }, so slot 3 (IMG_TYPE_IMG) is a null pointer, modelled as
`none`; indices past the array are also `none`. -/
def parse_dispatch (img_type : Nat) : Option ParserId :=
  match img_type with
  | 0 => some .ihex
  | 1 => some .iic
  | 2 => some .bin
  | _ => none

/-- pass structure of ezusb_load_ram (ezusb.c lines 765-817) for non-FX3
chips: the list of (parser, mode) parser passes it runs. The first pass
uses parse[img_type] with mode internal_only when stage == 0 and
skip_internal otherwise; when stage != 0 a second pass runs parse_ihex
(hard-coded at line 811) with mode skip_external after rewinding the
image. CPUCS halt/run calls and error aborts are not modelled here. -/
def load_ram_passes (img_type : Nat) (stage : Int) :
    List (Option ParserId × RamMode) :=
  (parse_dispatch img_type,
    if stage = 0 then RamMode.internal_only else RamMode.skip_internal)
  :: (if stage ≠ 0 then [(some ParserId.ihex, RamMode.skip_external)] else [])

/-! ### Intel HEX parser (parse_ihex, ezusb.c lines 242-374) -/

/-- the C nul character, terminator of C strings. -/
def nul : Char := Char.ofNat 0

/-- one poke callback invocation: (address, external, data bytes). -/
abbrev PokeCall := Nat × Bool × List Nat

/-- strlen on the modelled C line buffer: length up to the first nul. -/
def strlen (s : List Char) : Nat := (s.takeWhile (fun c => c ≠ nul)).length

/-- worker for the successive `fgets(buf, 512, image)` reads (ezusb.c line
270): `cur` is the reversed current line, `n` how many further characters
fgets may still take into it (fgets reads at most 511 and stops after a
newline). -/
def splitLinesAux : List Char → Nat → List Char → List (List Char)
  | [], _, cur => if cur = [] then [] else [cur.reverse]
  | c :: r, n, cur =>
    if c = '\n' then (c :: cur).reverse :: splitLinesAux r 510 []
    else if n = 0 then (c :: cur).reverse :: splitLinesAux r 510 []
    else splitLinesAux r (n - 1) (c :: cur)

/-- split the image stream into the successive results of `fgets(buf, 512)`:
each line ends after a newline or after 511 characters. The reads do not
depend on the parser state, so they can be taken up front. -/
def splitLines (f : List Char) : List (List Char) :=
  splitLinesAux f 510 []

/-- overwrite the front of the persistent 512-byte line buffer with the
newly read line and its terminating nul, keeping the stale tail (fgets
reuses the same stack buffer on every iteration). -/
def overwriteFront (buf new : List Char) : List Char :=
  new ++ buf.drop new.length

/-- strchr(buf, newline) followed by `*cp = 0` (ezusb.c lines 286-288):
nul out the first newline occurring in the C string. -/
def nulNewline : List Char → List Char
  | [] => []
  | c :: r =>
    if c = nul then c :: r
    else if c = '\n' then nul :: r
    else c :: nulNewline r

/-- hexadecimal digit test, as accepted by strtoul base 16. -/
def isHexDigit (c : Char) : Bool :=
  decide ((('0' ≤ c) ∧ (c ≤ '9')) ∨ (('a' ≤ c) ∧ (c ≤ 'f')) ∨
    (('A' ≤ c) ∧ (c ≤ 'F')))

/-- value of a hexadecimal digit. -/
def hexVal (c : Char) : Nat :=
  if ('0' ≤ c) ∧ (c ≤ '9') then c.toNat - 48
  else if ('a' ≤ c) ∧ (c ≤ 'f') then c.toNat - 87
  else c.toNat - 55

/-- digit-folding part of strtoul base 16: consume hexadecimal digits,
stop at the first other character. -/
def strtoulDigits : List Char → Nat → Nat
  | [], acc => acc
  | c :: r, acc =>
    if isHexDigit c then strtoulDigits r (acc * 16 + hexVal c) else acc

/-- characters skipped by strtoul's isspace prefix scan. -/
def isSpaceC (c : Char) : Bool :=
  decide (c = ' ' ∨ c = '\t' ∨ c = '\n' ∨ c = Char.ofNat 11 ∨
    c = Char.ofNat 12 ∨ c = '\r')

/-- strtoul(s, NULL, 16) as applied to the bounded hex fields of an ihex
line: skip leading whitespace, allow an optional 0x/0X prefix, fold
hexadecimal digits, stop at the first other character (including the
temporary nul the C code plants right after the field). A leading sign is
not modelled: a signed field drives the C code into unsigned wraparound
feeding an out-of-bounds buffer write, undefined behaviour outside what
this embedding covers. -/
def strtoul16 (s : List Char) : Nat :=
  match s.dropWhile isSpaceC with
  | c0 :: c1 :: r =>
    if c0 = '0' ∧ (c1 = 'x' ∨ c1 = 'X') then strtoulDigits r 0
    else strtoulDigits (c0 :: c1 :: r) 0
  | s1 => strtoulDigits s1 0

/-- read the n-character field of the line buffer starting at index i (the
C code bounds each strtoul call by planting a temporary nul right after
the field). -/
def fieldAt (buf : List Char) (i n : Nat) : List Char :=
  (buf.drop i).take n

/-- loop state of parse_ihex: the persistent 512-char line buffer, the
pending segment (data_addr, data with data_len = data.length), the
first_line flag, and the poke calls emitted so far. -/
structure IhexState where
  buf : List Char
  data_addr : Nat
  data : List Nat
  first_line : Bool
  pokes : List PokeCall

/-- final flush of parse_ihex (ezusb.c lines 366-373), also reached by the
EOF-record and EOF-without-EOF-record breaks. -/
def ihexFinalFlush (isExt : Nat → Nat → Bool)
    (poke : Nat → Bool → List Nat → Int) (st : IhexState) :
    Int × List PokeCall :=
  if st.data.length ≠ 0 then
    let ext := isExt st.data_addr st.data.length
    let rc := poke st.data_addr ext st.data
    let pokes' := st.pokes ++ [(st.data_addr, ext, st.data)]
    if rc < 0 then (-1, pokes') else (0, pokes')
  else (0, st.pokes)

/-- main loop of parse_ihex (ezusb.c lines 264-362), one step per fgets
line. `isExt` models the is_external classifier (non-null at every
ezusb_load_ram call site), `poke` the poke callback; the result is the C
return value paired with the emitted poke calls. -/
def parse_ihex_lines (isExt : Nat → Nat → Bool)
    (poke : Nat → Bool → List Nat → Int) :
    List (List Char) → IhexState → Int × List PokeCall
  | [], st => ihexFinalFlush isExt poke st
  | line :: rest, st =>
    let buf0 := overwriteFront st.buf (line ++ [nul])
    if buf0.headD nul = '#' then
      parse_ihex_lines isExt poke rest { st with buf := buf0 }
    else if buf0.headD nul ≠ ':' then (-2, st.pokes)
    else
      let buf := nulNewline buf0
      let len := strtoul16 (fieldAt buf 1 2)
      let off := strtoul16 (fieldAt buf 3 4)
      let addr0 := if st.first_line then off else st.data_addr
      let ty := strtoul16 (fieldAt buf 7 2) % 256
      if ty = 1 then
        ihexFinalFlush isExt poke
          { st with buf := buf, data_addr := addr0, first_line := false }
      else if ty ≠ 0 then (-3, st.pokes)
      else if 2 * len + 11 > strlen buf then (-4, st.pokes)
      else
        let newBytes :=
          (List.range len).map (fun i => strtoul16 (fieldAt buf (9 + 2 * i) 2))
        if st.data.length ≠ 0 ∧
            (off ≠ addr0 + st.data.length ∨ st.data.length + len > 1023) then
          let ext := isExt addr0 st.data.length
          let rc := poke addr0 ext st.data
          let pokes' := st.pokes ++ [(addr0, ext, st.data)]
          if rc < 0 then (-1, pokes')
          else
            parse_ihex_lines isExt poke rest
              { buf := buf, data_addr := off, data := newBytes,
                first_line := false, pokes := pokes' }
        else
          parse_ihex_lines isExt poke rest
            { buf := buf, data_addr := addr0, data := st.data ++ newBytes,
              first_line := false, pokes := st.pokes }

/-- entry state of parse_ihex (ezusb.c lines 247-252); the uninitialized C
stack buffer is modelled as nul-filled. -/
def ihexInit : IhexState :=
  { buf := List.replicate 512 nul, data_addr := 0, data := [],
    first_line := true, pokes := [] }

/-- parse_ihex (ezusb.c lines 242-374) over an image byte stream. -/
def parse_ihex (isExt : Nat → Nat → Bool)
    (poke : Nat → Bool → List Nat → Int) (file : List Char) :
    Int × List PokeCall :=
  parse_ihex_lines isExt poke (splitLines file) ihexInit

/-! ### FX3 loader (fx3_load_ram, ezusb.c lines 566-702)

The transport is modelled as ideal for this path: every control transfer
succeeds and the read-back of a just-written range returns the bytes
written, so the byte-compare verify loop (lines 670-677) always passes.
The claims settled against this model concern images whose upload is
accepted, where every transfer succeeded. -/

/-- little-endian decoding of one u32, as fread of a uint32_t on the
little-endian host this sysroot targets (macos/amd64); `none` models a
short read (`fread(...) != 1`). -/
def readLE32 : List Nat → Option (Nat × List Nat)
  | b0 :: b1 :: b2 :: b3 :: r =>
    some (b0 + 256 * b1 + 65536 * b2 + 16777216 * b3, r)
  | _ => none

/-- fread of `n` uint32 words (ezusb.c line 647); `none` models a short
read. -/
def readWords : Nat → List Nat → Option (List Nat × List Nat)
  | 0, r => some ([], r)
  | n + 1, r =>
    match readLE32 r with
    | none => none
    | some (w, r1) =>
      match readWords n r1 with
      | none => none
      | some (ws, r2) => some (w :: ws, r2)

/-- uint32 modulus. -/
def U32 : Nat := 4294967296

/-- worker for the inner sub-write loop, structurally recursive on a fuel
that bounds the remaining byte count (each pass consumes at least one
byte). -/
def fx3_sub_writes_go : Nat → Nat → Nat → List (Nat × Nat)
  | 0, _, _ => []
  | fuel + 1, dAddress, byteLen =>
    if byteLen = 0 then []
    else
      let dLen := min 4096 byteLen
      (dAddress, dLen) ::
        fx3_sub_writes_go fuel ((dAddress + dLen) % U32) (byteLen - dLen)

/-- inner sub-write loop of a chunk (ezusb.c lines 658-682): split
`byteLen` bytes at `dAddress` into sub-writes of at most 4096 bytes
(`dLen = 4096; if (dLen > dLength) dLen = dLength`), recording each
(address, length) write; dAddress advances with uint32 wraparound. -/
def fx3_sub_writes (dAddress byteLen : Nat) : List (Nat × Nat) :=
  fx3_sub_writes_go byteLen dAddress byteLen

/-- worker for the chunk loop, structurally recursive on a fuel that
bounds the remaining stream length (each pass consumes at least twelve
bytes). An exhausted fuel can only coincide with an exhausted stream,
where the C also fails its fread with -3. -/
def fx3_loop_go : Nat → List Nat → Nat → List (Nat × Nat) →
    Int × Option Nat × List (Nat × Nat)
  | 0, _, _, writes => (-3, none, writes)
  | fuel + 1, bytes, cks, writes =>
    match readLE32 bytes with
    | none => (-3, none, writes)
    | some (dLength, r1) =>
      match readLE32 r1 with
      | none => (-3, none, writes)
      | some (dAddress, r2) =>
        if dLength = 0 then
          match readLE32 r2 with
          | none => (-7, none, writes)
          | some (expected, _) =>
            if cks ≠ expected then (-7, none, writes)
            else (0, some dAddress, writes)
        else
          match readWords dLength r2 with
          | none => (-3, none, writes)
          | some (ws, r3) =>
            let cks' := ws.foldl (fun a w => (a + w) % U32) cks
            let byteLen := dLength * 4 % U32
            fx3_loop_go fuel r3 cks' (writes ++ fx3_sub_writes dAddress byteLen)

/-- chunk loop of fx3_load_ram (ezusb.c lines 628-697): read (word count,
address) pairs; a zero word count ends the stream, then the trailing
checksum is compared and the jump command issued at the address read
together with the zero length. Returns (ret, jump target if the jump
command was issued, sub-writes performed). -/
def fx3_loop (bytes : List Nat) (cks : Nat) (writes : List (Nat × Nat)) :
    Int × Option Nat × List (Nat × Nat) :=
  fx3_loop_go bytes.length bytes cks writes

/-- fx3_load_ram (ezusb.c lines 566-702) over the image byte stream:
header read and validation (CY signature, image type byte) followed by the
chunk loop. The bootloader-version read (lines 616-623, verbose is 1) and
all data transfers are ideal. Result is (ret, jump target if issued,
sub-writes performed). -/
def fx3_load_ram (file : List Nat) : Int × Option Nat × List (Nat × Nat) :=
  match file with
  | h0 :: h1 :: _ :: h3 :: rest =>
    if h0 = 67 ∧ h1 = 89 then
      if h3 = 0xB0 then fx3_loop rest 0 []
      else (-3, none, [])
    else (-3, none, [])
  | _ => (-3, none, [])

/-! ### Input encoders, used to build concrete and families of inputs for
the theorems below. -/

/-- uppercase hexadecimal digit character. -/
def hexDigit (n : Nat) : Char :=
  if n < 10 then Char.ofNat (48 + n) else Char.ofNat (55 + n)

/-- two-digit hexadecimal field of a byte. -/
def hex2 (n : Nat) : List Char :=
  [hexDigit (n / 16 % 16), hexDigit (n % 16)]

/-- four-digit hexadecimal field of a 16-bit value. -/
def hex4 (n : Nat) : List Char :=
  [hexDigit (n / 4096 % 16), hexDigit (n / 256 % 16),
    hexDigit (n / 16 % 16), hexDigit (n % 16)]

/-- Intel HEX record checksum byte: two's complement of the byte sum. -/
def ihexCks (off : Nat) (ty : Nat) (bytes : List Nat) : Nat :=
  (256 - (bytes.length + off / 256 % 256 + off % 256 + ty +
    bytes.foldl (fun a b => a + b % 256) 0) % 256) % 256

/-- one Intel HEX data record line, newline included: colon, two-digit
length, four-digit address, record type 00, the data bytes, the checksum
byte, newline. -/
def encodeRec (off : Nat) (bytes : List Nat) : List Char :=
  ':' :: hexDigit (bytes.length / 16 % 16) :: hexDigit (bytes.length % 16) ::
    hexDigit (off / 4096 % 16) :: hexDigit (off / 256 % 16) ::
    hexDigit (off / 16 % 16) :: hexDigit (off % 16) ::
    hexDigit 0 :: hexDigit 0 ::
    ((bytes.map hex2).flatten ++ hex2 (ihexCks off 0 bytes) ++ ['\n'])

/-- the Intel HEX end-of-file record line `:00000001FF`. -/
def eofRec : List Char :=
  [':', '0', '0', '0', '0', '0', '0', '0', '1', 'F', 'F', '\n']

/-- a list of data records followed by the end-of-file record, as one
image stream. -/
def encodeRecs (recs : List (Nat × List Nat)) : List Char :=
  (recs.map (fun r => encodeRec r.1 r.2)).flatten ++ eofRec

/-- little-endian encoding of one u32. -/
def le32 (n : Nat) : List Nat :=
  [n % 256, n / 256 % 256, n / 65536 % 256, n / 16777216 % 256]

/-- one FX3 image chunk: word count, address, data words. -/
def encodeChunk (c : Nat × List Nat) : List Nat :=
  le32 c.2.length ++ le32 c.1 ++ (c.2.map le32).flatten

/-- checksum the FX3 loader accumulates over an image's data words. -/
def fx3cks (chunks : List (Nat × List Nat)) : Nat :=
  ((chunks.map (fun c => c.2)).flatten).foldl (fun a w => (a + w) % U32) 0

/-- a complete FX3 image: CY header with a normal (0xB0) type byte, the
chunks, the zero-length terminator carrying the entry address, and the
trailing checksum. -/
def encodeFx3 (chunks : List (Nat × List Nat)) (entry : Nat) : List Nat :=
  [67, 89, 0, 176] ++ (chunks.map encodeChunk).flatten ++
    le32 0 ++ le32 entry ++ le32 (fx3cks chunks)

/-- strictly ascending, non-overlapping poke sequence: each call's address
is at least `lo`, and each subsequent call's address is at least the
previous call's address plus its data length. -/
def pokesAscFrom (lo : Nat) : List PokeCall → Bool
  | [] => true
  | p :: ps => decide (lo ≤ p.1) && pokesAscFrom (p.1 + p.2.2.length) ps

/-- end address of the last poke of the list, `lo` when the list is empty. -/
def pokesEndD (lo : Nat) : List PokeCall → Nat
  | [] => lo
  | p :: ps => pokesEndD (p.1 + p.2.2.length) ps

/-- well-formed data records for the Intel HEX encoder: nonempty data of
at most 249 bytes (so one record plus newline fits in one 511-character
fgets read), 16-bit record address, byte-sized data. -/
def recsWF (recs : List (Nat × List Nat)) : Prop :=
  ∀ r ∈ recs, 1 ≤ r.2.length ∧ r.2.length ≤ 249 ∧ r.1 < 65536 ∧
    ∀ b ∈ r.2, b < 256

/-- records in ascending, non-overlapping address order starting at or
after `lo`: each record's address is at least the previous record's
address plus its data length. -/
def recsSortedFrom : Nat → List (Nat × List Nat) → Prop
  | _, [] => True
  | lo, r :: rs => lo ≤ r.1 ∧ recsSortedFrom (r.1 + r.2.length) rs

/-! ## Theorems -/

/-- le32 followed by readLE32 is the identity below 2^32. -/
theorem readLE32_le32 (n : Nat) (rest : List Nat) (h : n < U32) :
    readLE32 (le32 n ++ rest) = some (n, rest) := by
  simp only [le32, List.cons_append, List.nil_append, readLE32,
    Option.some.injEq, Prod.mk.injEq, and_true]
  simp only [U32] at h
  omega

/-- readWords decodes an encoded word list and leaves the rest. -/
theorem readWords_encode :
    ∀ (ws : List Nat) (rest : List Nat), (∀ w ∈ ws, w < U32) →
      readWords ws.length ((ws.map le32).flatten ++ rest) = some (ws, rest) := by
  intro ws
  induction ws with
  | nil => intro rest _; simp [readWords]
  | cons w tl ih =>
    intro rest hw
    have hwlt : w < U32 := hw w (by simp)
    simp only [List.map_cons, List.flatten_cons, List.length_cons, readWords,
      List.append_assoc]
    rw [readLE32_le32 w _ hwlt]
    simp only [ih rest (fun x hx => hw x (by simp [hx]))]

/-- the wrap-around checksum accumulator stays below 2^32. -/
theorem foldU32_lt :
    ∀ (l : List Nat) (a : Nat), a < U32 →
      l.foldl (fun x w => (x + w) % U32) a < U32 := by
  intro l
  induction l with
  | nil => intro a ha; simpa using ha
  | cons w tl ih =>
    intro a ha
    simp only [List.foldl_cons]
    exact ih _ (Nat.mod_lt _ (by simp [U32]))

/-- byte length of an encoded word list. -/
theorem le32_flatten_length (ws : List Nat) :
    ((ws.map le32).flatten).length = 4 * ws.length := by
  induction ws with
  | nil => simp
  | cons w tl ihw =>
    simp [le32, ihw]
    omega

/-- well-formed FX3 image chunks: nonempty, with word count, address and
words all representable as u32. -/
def fx3ChunksWF (chunks : List (Nat × List Nat)) : Prop :=
  ∀ c ∈ chunks, c.2 ≠ [] ∧ c.2.length < U32 ∧ c.1 < U32 ∧ ∀ w ∈ c.2, w < U32

/-- running the chunk loop over encoded chunks followed by the zero-length
terminator (carrying `entry`) and a trailing stored checksum `K`: the
accumulated checksum is compared against `K` and, on a match, the jump is
issued at `entry`. -/
theorem fx3_loop_go_encode :
    ∀ (chunks : List (Nat × List Nat)) (fuel : Nat) (cks : Nat)
      (writes : List (Nat × Nat)) (entry K : Nat),
      fx3ChunksWF chunks → entry < U32 → K < U32 →
      ((chunks.map encodeChunk).flatten ++ le32 0 ++ le32 entry ++ le32 K).length ≤ fuel →
      ∃ ws', fx3_loop_go fuel
          ((chunks.map encodeChunk).flatten ++ le32 0 ++ le32 entry ++ le32 K)
          cks writes =
        if ((chunks.map (fun c => c.2)).flatten.foldl (fun a w => (a + w) % U32) cks) = K
        then (0, some entry, ws') else (-7, none, ws') := by
  intro chunks
  induction chunks with
  | nil =>
    intro fuel cks writes entry K _ hentry hK hfuel
    simp only [List.map_nil, List.flatten, List.nil_append] at hfuel ⊢
    match fuel, hfuel with
    | f + 1, _ =>
      refine ⟨writes, ?_⟩
      simp only [fx3_loop_go, List.append_assoc]
      rw [readLE32_le32 0 _ (by simp [U32])]
      simp only []
      rw [readLE32_le32 entry _ hentry]
      simp only [if_pos rfl]
      rw [show le32 K = le32 K ++ ([] : List Nat) by simp,
        readLE32_le32 K _ hK]
      by_cases hc : cks = K
      · simp [hc]
      · simp [hc, Ne.symm hc]
  | cons c cs ih =>
    intro fuel cks writes entry K hwf hentry hK hfuel
    have hc := hwf c (by simp)
    obtain ⟨hne, hlen, haddr, hws⟩ := hc
    have hlfuel : 0 < fuel := by
      rcases fuel with _ | f
      · simp only [List.map_cons, List.flatten_cons, encodeChunk, le32,
          List.append_assoc, List.cons_append, List.length_cons] at hfuel
        omega
      · omega
    match fuel, hlfuel with
    | f + 1, _ =>
      have hne0 : ¬c.2.length = 0 := by simpa using hne
      simp only [List.map_cons, List.flatten_cons, encodeChunk, List.append_assoc]
      simp only [fx3_loop_go, readLE32_le32 c.2.length _ hlen,
        readLE32_le32 c.1 _ haddr, readWords_encode c.2 _ hws, if_neg hne0]
      have hfuel' :
          ((cs.map encodeChunk).flatten ++ le32 0 ++ le32 entry ++ le32 K).length ≤ f := by
        have h1 : 0 < c.2.length := List.length_pos.mpr hne
        have hlen_all :
            ((List.map encodeChunk (c :: cs)).flatten ++ le32 0 ++ le32 entry ++
                le32 K).length =
              8 + 4 * c.2.length +
                ((List.map encodeChunk cs).flatten ++ le32 0 ++ le32 entry ++
                  le32 K).length := by
          simp only [List.map_cons, List.flatten_cons, encodeChunk,
            List.append_assoc, List.length_append, le32_flatten_length, le32,
            List.length_cons, List.length_nil]
          omega
        omega
      obtain ⟨ws', hres⟩ := ih f
        (c.2.foldl (fun a w => (a + w) % U32) cks)
        (writes ++ fx3_sub_writes c.1 (c.2.length * 4 % U32)) entry K
        (fun d hd => hwf d (by simp [hd])) hentry hK hfuel'
      refine ⟨ws', ?_⟩
      simp only [List.append_assoc] at hres
      simp only [List.foldl_append]
      exact hres

/-- facts about encoder digits: they are hexadecimal digits with the right
value, are not whitespace, and collide with none of the characters the
parser treats specially. -/
theorem hexDigit_facts : ∀ m : Nat, m < 16 →
    isHexDigit (hexDigit m) = true ∧ hexVal (hexDigit m) = m ∧
    isSpaceC (hexDigit m) = false ∧ hexDigit m ≠ '\n' ∧ hexDigit m ≠ nul ∧
    hexDigit m ≠ 'x' ∧ hexDigit m ≠ 'X' := by
  decide

/-- strtoul16 on a two-digit field. -/
theorem strtoul16_two (d1 d2 : Nat) (h1 : d1 < 16) (h2 : d2 < 16) :
    strtoul16 [hexDigit d1, hexDigit d2] = d1 * 16 + d2 := by
  obtain ⟨hx1, hv1, hs1, -, -, -, -⟩ := hexDigit_facts d1 h1
  obtain ⟨hx2, hv2, -, -, -, hxx2, hXX2⟩ := hexDigit_facts d2 h2
  simp only [strtoul16, List.dropWhile_cons, hs1]
  simp only [Bool.false_eq_true, if_false]
  rw [if_neg (by simp [hxx2, hXX2])]
  simp [strtoulDigits, hx1, hx2, hv1, hv2]

/-- strtoul16 on a four-digit field. -/
theorem strtoul16_four (d1 d2 d3 d4 : Nat)
    (h1 : d1 < 16) (h2 : d2 < 16) (h3 : d3 < 16) (h4 : d4 < 16) :
    strtoul16 [hexDigit d1, hexDigit d2, hexDigit d3, hexDigit d4] =
      ((d1 * 16 + d2) * 16 + d3) * 16 + d4 := by
  obtain ⟨hx1, hv1, hs1, -, -, -, -⟩ := hexDigit_facts d1 h1
  obtain ⟨hx2, hv2, -, -, -, hxx2, hXX2⟩ := hexDigit_facts d2 h2
  obtain ⟨hx3, hv3, -, -, -, -, -⟩ := hexDigit_facts d3 h3
  obtain ⟨hx4, hv4, -, -, -, -, -⟩ := hexDigit_facts d4 h4
  simp only [strtoul16, List.dropWhile_cons, hs1]
  simp only [Bool.false_eq_true, if_false]
  rw [if_neg (by simp [hxx2, hXX2])]
  simp [strtoulDigits, hx1, hx2, hx3, hx4, hv1, hv2, hv3, hv4]

/-- character count of the encoded data bytes. -/
theorem hex2_flatten_length (bytes : List Nat) :
    ((bytes.map hex2).flatten).length = 2 * bytes.length := by
  induction bytes with
  | nil => simp
  | cons b tl ih =>
    simp [hex2, ih]
    omega

/-- every character of an encoded byte is an encoder digit. -/
theorem hex2_chars (c : Char) (b : Nat) (h : c ∈ hex2 b) :
    ∃ m, m < 16 ∧ c = hexDigit m := by
  simp only [hex2, List.mem_cons, List.mem_singleton, List.not_mem_nil,
    or_false] at h
  rcases h with h | h
  · exact ⟨b / 16 % 16, by omega, h⟩
  · exact ⟨b % 16, by omega, h⟩

/-- nulNewline turns the first newline into the terminator and leaves the
rest alone. -/
theorem nulNewline_append (body rest : List Char)
    (h : ∀ c ∈ body, c ≠ '\n' ∧ c ≠ nul) :
    nulNewline (body ++ '\n' :: rest) = body ++ nul :: rest := by
  induction body with
  | nil => simp [nulNewline, nul]
  | cons c bs ih =>
    have hc := h c (by simp)
    simp only [List.cons_append, nulNewline, if_neg hc.2, if_neg hc.1]
    simp only [List.append_eq]
    rw [ih (fun d hd => h d (by simp [hd]))]

/-- strlen stops at the planted terminator. -/
theorem strlen_append_nul (body rest : List Char)
    (h : ∀ c ∈ body, c ≠ nul) :
    strlen (body ++ nul :: rest) = body.length := by
  induction body with
  | nil => simp [strlen, List.takeWhile]
  | cons c bs ih =>
    have hc := h c (by simp)
    simp only [strlen, List.cons_append, List.takeWhile_cons, decide_eq_true_eq]
    rw [if_pos hc]
    simp only [List.length_cons]
    have := ih (fun d hd => h d (by simp [hd]))
    simp only [strlen] at this
    omega

/-- dropping 2i characters into the encoded data bytes lands on the
encoding of byte i. -/
theorem flatten_hex2_drop :
    ∀ (bytes : List Nat) (i : Nat), i < bytes.length →
      ((bytes.map hex2).flatten).drop (2 * i) =
        hex2 (bytes.getD i 0) ++ ((bytes.drop (i + 1)).map hex2).flatten := by
  intro bytes
  induction bytes with
  | nil => intro i hi; simp at hi
  | cons b tl ih =>
    intro i hi
    cases i with
    | zero => simp [hex2]
    | succ j =>
      have h2 : 2 * (j + 1) = (2 * j).succ.succ := by omega
      rw [h2]
      simp only [List.map_cons, List.flatten_cons, hex2, List.cons_append,
        List.drop_succ_cons, List.getD_cons_succ]
      have := ih j (by simpa using hi)
      simpa [hex2] using this

/-- mapping getD over the index range recovers the list. -/
theorem map_range_getD (l : List Nat) :
    (List.range l.length).map (fun i => l.getD i 0) = l := by
  apply List.ext_getElem
  · simp
  · intro i h1 h2
    simp only [List.getElem_map, List.getElem_range]
    rw [List.getD_eq_getElem l 0 h2]

/-- processing one well-formed encoded data record: the parser flushes the
pending segment exactly when it is nonempty and the record is either not
contiguous with it or would push it past 1023 bytes, then starts a new
segment; otherwise it appends the record to the pending segment. -/
theorem ihex_step_data (isExt : Nat → Nat → Bool)
    (poke : Nat → Bool → List Nat → Int) (st : IhexState) (off addr0 : Nat)
    (bytes : List Nat) (lines : List (List Char))
    (hlen1 : 1 ≤ bytes.length) (hlen2 : bytes.length ≤ 249)
    (hoff : off < 65536) (hbytes : ∀ b ∈ bytes, b < 256)
    (haddr0 : addr0 = if st.first_line then off else st.data_addr) :
    ∃ buf',
      parse_ihex_lines isExt poke (encodeRec off bytes :: lines) st =
        if st.data.length ≠ 0 ∧
            (off ≠ addr0 + st.data.length ∨
              st.data.length + bytes.length > 1023) then
          (if poke addr0 (isExt addr0 st.data.length) st.data < 0 then
            (-1, st.pokes ++ [(addr0, isExt addr0 st.data.length, st.data)])
          else
            parse_ihex_lines isExt poke lines
              { buf := buf', data_addr := off, data := bytes,
                first_line := false,
                pokes := st.pokes ++
                  [(addr0, isExt addr0 st.data.length, st.data)] })
        else
          parse_ihex_lines isExt poke lines
            { buf := buf', data_addr := addr0, data := st.data ++ bytes,
              first_line := false, pokes := st.pokes } := by
  subst haddr0
  have hflatlen : ((bytes.map hex2).flatten).length = 2 * bytes.length :=
    hex2_flatten_length bytes
  set flat := (bytes.map hex2).flatten with hflat_def
  set cks2 := hex2 (ihexCks off 0 bytes) with hcks_def
  set body : List Char := ':' :: hexDigit (bytes.length / 16 % 16) ::
      hexDigit (bytes.length % 16) :: hexDigit (off / 4096 % 16) ::
      hexDigit (off / 256 % 16) :: hexDigit (off / 16 % 16) ::
      hexDigit (off % 16) :: hexDigit 0 :: hexDigit 0 :: (flat ++ cks2)
    with hbody_def
  have henc : encodeRec off bytes = body ++ ['\n'] := by
    simp [encodeRec, hbody_def, List.cons_append, List.append_assoc]
  have hchars : ∀ c ∈ body, c ≠ '\n' ∧ c ≠ nul := by
    intro c hc
    rw [hbody_def] at hc
    simp only [List.mem_cons, List.mem_append] at hc
    have hdig : ∀ m : Nat, m < 16 → hexDigit m ≠ '\n' ∧ hexDigit m ≠ nul := by
      intro m hm
      obtain ⟨-, -, -, h4, h5, -, -⟩ := hexDigit_facts m hm
      exact ⟨h4, h5⟩
    rcases hc with h | h | h | h | h | h | h | h | h | h | h
    · subst h; exact ⟨by decide, by decide⟩
    · subst h; exact hdig _ (Nat.mod_lt _ (by norm_num))
    · subst h; exact hdig _ (Nat.mod_lt _ (by norm_num))
    · subst h; exact hdig _ (Nat.mod_lt _ (by norm_num))
    · subst h; exact hdig _ (Nat.mod_lt _ (by norm_num))
    · subst h; exact hdig _ (Nat.mod_lt _ (by norm_num))
    · subst h; exact hdig _ (Nat.mod_lt _ (by norm_num))
    · subst h; exact hdig 0 (by norm_num)
    · subst h; exact hdig 0 (by norm_num)
    · rw [hflat_def] at h
      simp only [List.mem_flatten, List.mem_map] at h
      obtain ⟨l, ⟨b, -, hb⟩, hcl⟩ := h
      subst hb
      obtain ⟨m, hm, hcm⟩ := hex2_chars c b hcl
      subst hcm
      exact hdig m hm
    · rw [hcks_def] at h
      obtain ⟨m, hm, hcm⟩ := hex2_chars c _ h
      subst hcm
      exact hdig m hm
  set stale := st.buf.drop (body.length + 2) with hstale_def
  have hbuf0 : overwriteFront st.buf (encodeRec off bytes ++ [nul]) =
      body ++ '\n' :: nul :: stale := by
    rw [henc]
    simp only [overwriteFront, hstale_def, List.append_assoc, List.cons_append,
      List.nil_append, List.length_append, List.length_cons, List.length_nil]
  have hbufn : nulNewline (body ++ '\n' :: nul :: stale) =
      body ++ nul :: nul :: stale :=
    nulNewline_append body (nul :: stale) hchars
  have hbufC : body ++ nul :: nul :: stale =
      ':' :: hexDigit (bytes.length / 16 % 16) :: hexDigit (bytes.length % 16) ::
        hexDigit (off / 4096 % 16) :: hexDigit (off / 256 % 16) ::
        hexDigit (off / 16 % 16) :: hexDigit (off % 16) ::
        hexDigit 0 :: hexDigit 0 :: ((flat ++ cks2) ++ nul :: nul :: stale) := by
    rw [hbody_def]
    simp [List.cons_append]
  have hf1 : strtoul16 (fieldAt (body ++ nul :: nul :: stale) 1 2) =
      bytes.length := by
    rw [hbufC]
    have hfa : fieldAt (':' :: hexDigit (bytes.length / 16 % 16) ::
        hexDigit (bytes.length % 16) :: hexDigit (off / 4096 % 16) ::
        hexDigit (off / 256 % 16) :: hexDigit (off / 16 % 16) ::
        hexDigit (off % 16) :: hexDigit 0 :: hexDigit 0 ::
        ((flat ++ cks2) ++ nul :: nul :: stale)) 1 2 =
        [hexDigit (bytes.length / 16 % 16), hexDigit (bytes.length % 16)] := rfl
    rw [hfa, strtoul16_two _ _ (Nat.mod_lt _ (by norm_num))
      (Nat.mod_lt _ (by norm_num))]
    omega
  have hf2 : strtoul16 (fieldAt (body ++ nul :: nul :: stale) 3 4) = off := by
    rw [hbufC]
    have hfa : fieldAt (':' :: hexDigit (bytes.length / 16 % 16) ::
        hexDigit (bytes.length % 16) :: hexDigit (off / 4096 % 16) ::
        hexDigit (off / 256 % 16) :: hexDigit (off / 16 % 16) ::
        hexDigit (off % 16) :: hexDigit 0 :: hexDigit 0 ::
        ((flat ++ cks2) ++ nul :: nul :: stale)) 3 4 =
        [hexDigit (off / 4096 % 16), hexDigit (off / 256 % 16),
          hexDigit (off / 16 % 16), hexDigit (off % 16)] := rfl
    rw [hfa, strtoul16_four _ _ _ _ (Nat.mod_lt _ (by norm_num))
      (Nat.mod_lt _ (by norm_num)) (Nat.mod_lt _ (by norm_num))
      (Nat.mod_lt _ (by norm_num))]
    omega
  have hf3 : strtoul16 (fieldAt (body ++ nul :: nul :: stale) 7 2) = 0 := by
    rw [hbufC]
    have hfa : fieldAt (':' :: hexDigit (bytes.length / 16 % 16) ::
        hexDigit (bytes.length % 16) :: hexDigit (off / 4096 % 16) ::
        hexDigit (off / 256 % 16) :: hexDigit (off / 16 % 16) ::
        hexDigit (off % 16) :: hexDigit 0 :: hexDigit 0 ::
        ((flat ++ cks2) ++ nul :: nul :: stale)) 7 2 =
        [hexDigit 0, hexDigit 0] := rfl
    rw [hfa, strtoul16_two 0 0 (by norm_num) (by norm_num)]
  have hslen : strlen (body ++ nul :: nul :: stale) = 2 * bytes.length + 11 := by
    have hs := strlen_append_nul body (nul :: stale)
      (fun c hc => (hchars c hc).2)
    rw [hs, hbody_def]
    simp only [List.length_cons, List.length_append, hflatlen]
    rw [hcks_def]
    simp [hex2]
  have hnew : (List.range bytes.length).map
      (fun i => strtoul16 (fieldAt (body ++ nul :: nul :: stale) (9 + 2 * i) 2)) =
      bytes := by
    have h1 : ∀ i ∈ List.range bytes.length,
        strtoul16 (fieldAt (body ++ nul :: nul :: stale) (9 + 2 * i) 2) =
          bytes.getD i 0 := by
      intro i hi
      rw [List.mem_range] at hi
      have hdrop9 : (body ++ nul :: nul :: stale).drop (9 + 2 * i) =
          ((flat ++ cks2) ++ nul :: nul :: stale).drop (2 * i) := by
        rw [hbufC, ← List.drop_drop (2 * i) 9]
        rfl
      have hgd : bytes.getD i 0 < 256 := by
        rw [List.getD_eq_getElem bytes 0 hi]
        exact hbytes _ (List.getElem_mem hi)
      have hdropf : ((flat ++ cks2) ++ nul :: nul :: stale).drop (2 * i) =
          (hex2 (bytes.getD i 0) ++
            ((bytes.drop (i + 1)).map hex2).flatten) ++
            (cks2 ++ nul :: nul :: stale) := by
        rw [List.append_assoc, List.drop_append_of_le_length (by omega)]
        rw [hflat_def, flatten_hex2_drop bytes i hi]
      simp only [fieldAt]
      rw [hdrop9, hdropf, List.append_assoc]
      rw [List.take_append_of_le_length
        (show (2 : Nat) ≤ (hex2 (bytes.getD i 0)).length by simp [hex2])]
      have : (hex2 (bytes.getD i 0)).take 2 = hex2 (bytes.getD i 0) := by
        simp [hex2]
      rw [this, hex2, strtoul16_two _ _ (Nat.mod_lt _ (by norm_num))
        (Nat.mod_lt _ (by norm_num))]
      omega
    rw [List.map_congr_left h1, map_range_getD]
  refine ⟨body ++ nul :: nul :: stale, ?_⟩
  simp only [parse_ihex_lines]
  rw [hbuf0]
  have hhd : (body ++ '\n' :: nul :: stale).headD nul = ':' := by
    rw [hbody_def]
    rfl
  rw [hhd]
  rw [if_neg (by decide)]
  rw [if_neg (by decide)]
  rw [hbufn, hf1, hf2, hf3]
  rw [if_neg (by decide : ¬(0 % 256 = 1))]
  rw [if_neg (by decide : ¬(0 % 256 ≠ 0))]
  rw [hslen]
  rw [if_neg (by omega : ¬2 * bytes.length + 11 > 2 * bytes.length + 11)]
  rw [hnew]

/-- appending one poke past the current end keeps the sequence ascending
and moves the end to the new poke's end. -/
theorem pokesAsc_snoc :
    ∀ (ps : List PokeCall) (lo : Nat) (p : PokeCall),
      pokesAscFrom lo ps = true → pokesEndD lo ps ≤ p.1 →
      pokesAscFrom lo (ps ++ [p]) = true ∧
        pokesEndD lo (ps ++ [p]) = p.1 + p.2.2.length := by
  intro ps
  induction ps with
  | nil =>
    intro lo p _ hend
    simp only [pokesEndD] at hend
    simp [pokesAscFrom, pokesEndD, hend]
  | cons q qs ih =>
    intro lo p hasc hend
    simp only [pokesAscFrom, Bool.and_eq_true, decide_eq_true_eq] at hasc
    simp only [pokesEndD] at hend
    have := ih (q.1 + q.2.2.length) p hasc.2 hend
    simp only [List.cons_append, pokesAscFrom, Bool.and_eq_true,
      decide_eq_true_eq, pokesEndD]
    exact ⟨⟨hasc.1, this.1⟩, this.2⟩

/-- one fgets line: reading a newline-free body followed by a newline
consumes exactly that line. -/
theorem splitLinesAux_line :
    ∀ (body : List Char) (rest cur : List Char) (n : Nat),
      '\n' ∉ body → body.length ≤ n →
      splitLinesAux (body ++ '\n' :: rest) n cur =
        (cur.reverse ++ body ++ ['\n']) :: splitLinesAux rest 510 [] := by
  intro body
  induction body with
  | nil =>
    intro rest cur n _ _
    simp [splitLinesAux]
  | cons c bs ih =>
    intro rest cur n hnl hlen
    have hc : c ≠ '\n' := fun h => hnl (by simp [h])
    rcases n with _ | m
    · simp at hlen
    · simp only [List.cons_append, splitLinesAux, if_neg hc]
      rw [if_neg (by omega)]
      have : m + 1 - 1 = m := by omega
      rw [this]
      simp only [List.append_eq]
      rw [ih rest (c :: cur) m (fun h => hnl (by simp [h]))
        (by simpa using hlen)]
      simp

/-- splitLines takes one full line at a time. -/
theorem splitLines_cons (body rest : List Char)
    (hnl : '\n' ∉ body) (hlen : body.length ≤ 510) :
    splitLines ((body ++ ['\n']) ++ rest) = (body ++ ['\n']) :: splitLines rest := by
  simp only [splitLines, List.append_assoc, List.cons_append, List.nil_append]
  have := splitLinesAux_line body rest [] 510 hnl hlen
  simpa using this

/-- the characters of an encoded record body are never a newline. -/
theorem encodeRec_body_no_nl (off : Nat) (bytes : List Nat) :
    '\n' ∉ (':' :: hexDigit (bytes.length / 16 % 16) ::
      hexDigit (bytes.length % 16) :: hexDigit (off / 4096 % 16) ::
      hexDigit (off / 256 % 16) :: hexDigit (off / 16 % 16) ::
      hexDigit (off % 16) :: hexDigit 0 :: hexDigit 0 ::
      ((bytes.map hex2).flatten ++ hex2 (ihexCks off 0 bytes))) := by
  intro hmem
  have hdig : ∀ m : Nat, m < 16 → hexDigit m ≠ '\n' := by
    intro m hm
    exact (hexDigit_facts m hm).2.2.2.1
  simp only [List.mem_cons, List.mem_append] at hmem
  rcases hmem with h | h | h | h | h | h | h | h | h | h | h
  · exact absurd h.symm (by decide)
  · exact absurd h.symm (hdig _ (Nat.mod_lt _ (by norm_num)))
  · exact absurd h.symm (hdig _ (Nat.mod_lt _ (by norm_num)))
  · exact absurd h.symm (hdig _ (Nat.mod_lt _ (by norm_num)))
  · exact absurd h.symm (hdig _ (Nat.mod_lt _ (by norm_num)))
  · exact absurd h.symm (hdig _ (Nat.mod_lt _ (by norm_num)))
  · exact absurd h.symm (hdig _ (Nat.mod_lt _ (by norm_num)))
  · exact absurd h.symm (hdig 0 (by norm_num))
  · exact absurd h.symm (hdig 0 (by norm_num))
  · simp only [List.mem_flatten, List.mem_map] at h
    obtain ⟨l, ⟨b, -, hb⟩, hcl⟩ := h
    subst hb
    obtain ⟨m, hm, hcm⟩ := hex2_chars _ b hcl
    exact absurd hcm.symm (hdig m hm)
  · obtain ⟨m, hm, hcm⟩ := hex2_chars _ _ h
    exact absurd hcm.symm (hdig m hm)

/-- splitLines cuts the encoded image into its record lines followed by
the end-of-file record line. -/
theorem splitLines_encodeRecs :
    ∀ (recs : List (Nat × List Nat)), recsWF recs →
      splitLines (encodeRecs recs) =
        (recs.map (fun r => encodeRec r.1 r.2)) ++ [eofRec] := by
  intro recs
  induction recs with
  | nil =>
    intro _
    simp only [encodeRecs, List.map_nil, List.flatten_nil, List.nil_append]
    decide
  | cons r rs ih =>
    intro hwf
    obtain ⟨hl1, hl2, hoff, -⟩ := hwf r (by simp)
    have hsplit : encodeRecs (r :: rs) = encodeRec r.1 r.2 ++ encodeRecs rs := by
      simp [encodeRecs, List.append_assoc]
    have henc : encodeRec r.1 r.2 =
        (':' :: hexDigit (r.2.length / 16 % 16) ::
          hexDigit (r.2.length % 16) :: hexDigit (r.1 / 4096 % 16) ::
          hexDigit (r.1 / 256 % 16) :: hexDigit (r.1 / 16 % 16) ::
          hexDigit (r.1 % 16) :: hexDigit 0 :: hexDigit 0 ::
          ((r.2.map hex2).flatten ++ hex2 (ihexCks r.1 0 r.2))) ++ ['\n'] := by
      simp [encodeRec, List.cons_append, List.append_assoc]
    have hblen : (':' :: hexDigit (r.2.length / 16 % 16) ::
        hexDigit (r.2.length % 16) :: hexDigit (r.1 / 4096 % 16) ::
        hexDigit (r.1 / 256 % 16) :: hexDigit (r.1 / 16 % 16) ::
        hexDigit (r.1 % 16) :: hexDigit 0 :: hexDigit 0 ::
        ((r.2.map hex2).flatten ++ hex2 (ihexCks r.1 0 r.2))).length ≤ 510 := by
      simp only [List.length_cons, List.length_append, hex2_flatten_length]
      simp [hex2]
      omega
    rw [hsplit, henc, splitLines_cons _ _ (encodeRec_body_no_nl r.1 r.2) hblen,
      ih (fun q hq => hwf q (by simp [hq])), ← henc]
    simp

/-- processing the end-of-file record line: the parser breaks out of the
loop and flushes the pending segment. -/
theorem ihex_step_eof (isExt : Nat → Nat → Bool)
    (poke : Nat → Bool → List Nat → Int) (st : IhexState) :
    ∃ buf',
      parse_ihex_lines isExt poke [eofRec] st =
        ihexFinalFlush isExt poke
          { st with
            buf := buf',
            data_addr := (if st.first_line then 0 else st.data_addr),
            first_line := false } := by
  set stale := st.buf.drop 13 with hstale
  have hbuf0 : overwriteFront st.buf (eofRec ++ [nul]) =
      [':', '0', '0', '0', '0', '0', '0', '0', '1', 'F', 'F'] ++
        '\n' :: nul :: stale := by
    simp [overwriteFront, eofRec, hstale]
  have hbufn : nulNewline
      ([':', '0', '0', '0', '0', '0', '0', '0', '1', 'F', 'F'] ++
        '\n' :: nul :: stale) =
      [':', '0', '0', '0', '0', '0', '0', '0', '1', 'F', 'F'] ++
        nul :: nul :: stale :=
    nulNewline_append _ (nul :: stale) (by decide)
  refine ⟨[':', '0', '0', '0', '0', '0', '0', '0', '1', 'F', 'F'] ++
    nul :: nul :: stale, ?_⟩
  simp only [parse_ihex_lines]
  rw [hbuf0]
  have hhd : (([':', '0', '0', '0', '0', '0', '0', '0', '1', 'F', 'F'] ++
      '\n' :: nul :: stale)).headD nul = ':' := rfl
  rw [hhd]
  rw [if_neg (by decide)]
  rw [if_neg (by decide)]
  rw [hbufn]
  have hf1 : strtoul16 (fieldAt
      ([':', '0', '0', '0', '0', '0', '0', '0', '1', 'F', 'F'] ++
        nul :: nul :: stale) 1 2) = 0 := rfl
  have hf2 : strtoul16 (fieldAt
      ([':', '0', '0', '0', '0', '0', '0', '0', '1', 'F', 'F'] ++
        nul :: nul :: stale) 3 4) = 0 := rfl
  have hf3 : strtoul16 (fieldAt
      ([':', '0', '0', '0', '0', '0', '0', '0', '1', 'F', 'F'] ++
        nul :: nul :: stale) 7 2) = 1 := rfl
  rw [hf1, hf2, hf3]
  rw [if_pos (by decide : 1 % 256 = 1)]

/-- main induction for the ordering property: from a state whose emitted
pokes are ascending and end at or before the pending segment, parsing
sorted records followed by the end-of-file record emits only ascending
pokes. -/
theorem parse_lines_asc :
    ∀ (recs : List (Nat × List Nat)) (st : IhexState)
      (isExt : Nat → Nat → Bool) (poke : Nat → Bool → List Nat → Int),
      recsWF recs → st.first_line = false → st.data ≠ [] →
      pokesAscFrom 0 st.pokes = true →
      pokesEndD 0 st.pokes ≤ st.data_addr →
      recsSortedFrom (st.data_addr + st.data.length) recs →
      pokesAscFrom 0 ((parse_ihex_lines isExt poke
        ((recs.map (fun r => encodeRec r.1 r.2)) ++ [eofRec]) st).2) = true := by
  intro recs
  induction recs with
  | nil =>
    intro st isExt poke _ hfl hdne hasc hend _
    obtain ⟨buf', heq⟩ := ihex_step_eof isExt poke st
    simp only [List.map_nil, List.nil_append]
    rw [heq]
    simp only [ihexFinalFlush, hfl, Bool.false_eq_true, if_false]
    rw [if_pos (by simpa using hdne)]
    have hsnoc := pokesAsc_snoc st.pokes 0
      (st.data_addr, isExt st.data_addr st.data.length, st.data) hasc hend
    by_cases hrc : poke st.data_addr (isExt st.data_addr st.data.length)
        st.data < 0
    · rw [if_pos hrc]
      exact hsnoc.1
    · rw [if_neg hrc]
      exact hsnoc.1
  | cons r rs ih =>
    intro st isExt poke hwf hfl hdne hasc hend hsorted
    obtain ⟨hl1, hl2, hoff, hbv⟩ := hwf r (by simp)
    obtain ⟨hlo, hsorted'⟩ := hsorted
    obtain ⟨buf', heq⟩ := ihex_step_data isExt poke st r.1 st.data_addr r.2
      ((rs.map (fun q => encodeRec q.1 q.2)) ++ [eofRec]) hl1 hl2 hoff hbv
      (by simp [hfl])
    simp only [List.map_cons, List.cons_append]
    rw [heq]
    by_cases hflush : st.data.length ≠ 0 ∧
        (r.1 ≠ st.data_addr + st.data.length ∨
          st.data.length + r.2.length > 1023)
    · rw [if_pos hflush]
      have hsnoc := pokesAsc_snoc st.pokes 0
        (st.data_addr, isExt st.data_addr st.data.length, st.data) hasc hend
      by_cases hrc : poke st.data_addr (isExt st.data_addr st.data.length)
          st.data < 0
      · rw [if_pos hrc]
        exact hsnoc.1
      · rw [if_neg hrc]
        exact ih _ isExt poke (fun q hq => hwf q (by simp [hq])) rfl
          (show r.2 ≠ [] from List.length_pos.mp (by omega))
          hsnoc.1
          (show pokesEndD 0 (st.pokes ++
              [(st.data_addr, isExt st.data_addr st.data.length, st.data)]) ≤
            r.1 from by rw [hsnoc.2]; simpa using hlo)
          (show recsSortedFrom (r.1 + r.2.length) rs from hsorted')
    · rw [if_neg hflush]
      have hcontig : r.1 = st.data_addr + st.data.length := by
        have hne0 : st.data.length ≠ 0 := by simpa using hdne
        by_contra hne
        exact hflush ⟨hne0, Or.inl hne⟩
      refine ih _ isExt poke (fun q hq => hwf q (by simp [hq])) rfl
        (show st.data ++ r.2 ≠ [] by simp [hdne]) hasc
        (show pokesEndD 0 st.pokes ≤ st.data_addr from hend) ?_
      show recsSortedFrom (st.data_addr + (st.data ++ r.2).length) rs
      simp only [List.length_append]
      have heq2 : st.data_addr + (st.data.length + r.2.length) =
          r.1 + r.2.length := by omega
      rw [heq2]
      exact hsorted'

/-- C5 counterexample: the Intel HEX parser accepts an image whose two
data records appear in descending address order (records at 0x1000 and
then 0) and emits its pokes in that input order — not in ascending,
non-overlapping address order. -/
theorem claim_C5_counterexample :
    (parse_ihex fx2_is_external (fun _ _ _ => 0)
        (encodeRecs [(0x1000, [0xAA]), (0, [0xBB])])).1 = 0 ∧
    pokesAscFrom 0 ((parse_ihex fx2_is_external (fun _ _ _ => 0)
        (encodeRecs [(0x1000, [0xAA]), (0, [0xBB])])).2) = false := by
  decide

/-- C5 amended: for every accepted input stream whose data records appear
in ascending, non-overlapping address order, the sequence of poke calls
the Intel HEX parser emits is in strictly ascending, non-overlapping
address order — each call's address is at least the previous call's
address plus the previous call's data length. (The parser itself does not
reorder: out-of-order records yield out-of-order pokes.) -/
theorem claim_C5_pokes_ascending :
    ∀ (recs : List (Nat × List Nat)) (isExt : Nat → Nat → Bool)
      (poke : Nat → Bool → List Nat → Int),
      recsWF recs → recsSortedFrom 0 recs →
      pokesAscFrom 0 ((parse_ihex isExt poke (encodeRecs recs)).2) = true := by
  intro recs isExt poke hwf hsorted
  simp only [parse_ihex]
  rw [splitLines_encodeRecs recs hwf]
  cases recs with
  | nil =>
    simp only [List.map_nil, List.nil_append]
    obtain ⟨buf', heq⟩ := ihex_step_eof isExt poke ihexInit
    rw [heq]
    simp [ihexFinalFlush, ihexInit, pokesAscFrom]
  | cons r rs =>
    obtain ⟨hl1, hl2, hoff, hbv⟩ := hwf r (by simp)
    obtain ⟨-, hsorted'⟩ := hsorted
    obtain ⟨buf', heq⟩ := ihex_step_data isExt poke ihexInit r.1 r.1 r.2
      ((rs.map (fun q => encodeRec q.1 q.2)) ++ [eofRec]) hl1 hl2 hoff hbv rfl
    simp only [List.map_cons, List.cons_append]
    rw [heq]
    have hidata : ihexInit.data = [] := rfl
    rw [if_neg (by rw [hidata]; simp)]
    exact parse_lines_asc rs _ isExt poke (fun q hq => hwf q (by simp [hq]))
      rfl
      (show ihexInit.data ++ r.2 ≠ [] from by
        rw [hidata, List.nil_append]
        exact List.length_pos.mp (by omega))
      rfl (Nat.zero_le _)
      (show recsSortedFrom (r.1 + (ihexInit.data ++ r.2).length) rs from by
        rw [hidata, List.nil_append]
        exact hsorted')

/-- witness for C5 amended: a sorted two-record image yields ascending
pokes. -/
theorem claim_C5_pokes_ascending_witness :
    pokesAscFrom 0 ((parse_ihex fx2_is_external (fun _ _ _ => 0)
      (encodeRecs [(0x1000, [1, 2]), (0x1003, [4])])).2) = true :=
  claim_C5_pokes_ascending [(0x1000, [1, 2]), (0x1003, [4])]
    fx2_is_external (fun _ _ _ => 0)
    (by unfold recsWF; decide) (by simp [recsSortedFrom])

/-- C8: a data record contiguous with the nonempty pending segment (its
address equals the pending segment's address plus length) is merged into
the pending segment iff the merged length stays at or under 1023 bytes,
the pending segment otherwise being flushed as its own poke before the
record starts a new segment; and a record that is not contiguous with the
pending segment always flushes it as its own poke before starting a new
segment. -/
theorem claim_C8_contiguous_merge_iff_cap :
    ∀ (isExt : Nat → Nat → Bool) (poke : Nat → Bool → List Nat → Int)
      (st : IhexState) (bytes : List Nat) (lines : List (List Char)),
      st.first_line = false → st.data ≠ [] →
      1 ≤ bytes.length → bytes.length ≤ 249 →
      st.data_addr + st.data.length < 65536 → (∀ b ∈ bytes, b < 256) →
      (∃ buf',
        parse_ihex_lines isExt poke
          (encodeRec (st.data_addr + st.data.length) bytes :: lines) st =
        if st.data.length + bytes.length ≤ 1023 then
          parse_ihex_lines isExt poke lines
            { buf := buf', data_addr := st.data_addr,
              data := st.data ++ bytes, first_line := false,
              pokes := st.pokes }
        else
          (if poke st.data_addr (isExt st.data_addr st.data.length)
              st.data < 0 then
            (-1, st.pokes ++
              [(st.data_addr, isExt st.data_addr st.data.length, st.data)])
          else
            parse_ihex_lines isExt poke lines
              { buf := buf', data_addr := st.data_addr + st.data.length,
                data := bytes, first_line := false,
                pokes := st.pokes ++
                  [(st.data_addr, isExt st.data_addr st.data.length,
                    st.data)] })) ∧
      (∀ off : Nat, off < 65536 → off ≠ st.data_addr + st.data.length →
        ∃ buf',
          parse_ihex_lines isExt poke (encodeRec off bytes :: lines) st =
          (if poke st.data_addr (isExt st.data_addr st.data.length)
              st.data < 0 then
            (-1, st.pokes ++
              [(st.data_addr, isExt st.data_addr st.data.length, st.data)])
          else
            parse_ihex_lines isExt poke lines
              { buf := buf', data_addr := off, data := bytes,
                first_line := false,
                pokes := st.pokes ++
                  [(st.data_addr, isExt st.data_addr st.data.length,
                    st.data)] })) := by
  intro isExt poke st bytes lines hfl hdne hl1 hl2 hofflt hbytes
  have hne0 : st.data.length ≠ 0 := by simpa using hdne
  constructor
  · obtain ⟨buf', h⟩ := ihex_step_data isExt poke st
      (st.data_addr + st.data.length) st.data_addr bytes lines hl1 hl2 hofflt
      hbytes (by simp [hfl])
    refine ⟨buf', ?_⟩
    rw [h]
    by_cases hcap : st.data.length + bytes.length ≤ 1023
    · rw [if_neg ?hc, if_pos hcap]
      case hc =>
        rintro ⟨-, h2 | h2⟩
        · exact h2 rfl
        · omega
    · rw [if_pos ⟨hne0, Or.inr (by omega)⟩, if_neg hcap]
  · intro off hofflt2 hne
    obtain ⟨buf', h⟩ := ihex_step_data isExt poke st off st.data_addr bytes
      lines hl1 hl2 hofflt2 hbytes (by simp [hfl])
    refine ⟨buf', ?_⟩
    rw [h, if_pos ⟨hne0, Or.inl hne⟩]

/-- witness for C8 at a concrete pending segment and record: three pending
bytes at 0x1000 merged with a contiguous two-byte record. -/
theorem claim_C8_contiguous_merge_iff_cap_witness :
    ∃ buf',
      parse_ihex_lines fx2_is_external (fun _ _ _ => 0)
        (encodeRec (0x1000 + ([1, 2, 3] : List Nat).length) [4, 5] :: [])
        ⟨List.replicate 512 nul, 0x1000, [1, 2, 3], false, []⟩ =
      if ([1, 2, 3] : List Nat).length + ([4, 5] : List Nat).length ≤ 1023 then
        parse_ihex_lines fx2_is_external (fun _ _ _ => 0) []
          { buf := buf', data_addr := 0x1000, data := [1, 2, 3] ++ [4, 5],
            first_line := false, pokes := [] }
      else
        (if (fun (_ : Nat) (_ : Bool) (_ : List Nat) => (0 : Int)) 0x1000
            (fx2_is_external 0x1000 ([1, 2, 3] : List Nat).length)
            [1, 2, 3] < 0 then
          (-1, [] ++ [(0x1000,
            fx2_is_external 0x1000 ([1, 2, 3] : List Nat).length, [1, 2, 3])])
        else
          parse_ihex_lines fx2_is_external (fun _ _ _ => 0) []
            { buf := buf',
              data_addr := 0x1000 + ([1, 2, 3] : List Nat).length,
              data := [4, 5], first_line := false,
              pokes := [] ++ [(0x1000,
                fx2_is_external 0x1000 ([1, 2, 3] : List Nat).length,
                [1, 2, 3])] }) :=
  (claim_C8_contiguous_merge_iff_cap fx2_is_external (fun _ _ _ => 0)
    ⟨List.replicate 512 nul, 0x1000, [1, 2, 3], false, []⟩ [4, 5] []
    rfl (by decide) (by decide) (by decide) (by decide) (by decide)).1

/-- C3 counterexample: an accepted FX3 image with one chunk written at
[0x100, 0x104) and a terminating zero-length chunk whose address field is
0x9999 makes fx3_load_ram succeed and issue the jump at 0x9999 — neither
the start nor the end of the last byte range written. The terminator's
fread (ezusb.c lines 629-630) overwrites dAddress before the break, so the
jump target is the image's entry field, not the last-written address. -/
theorem claim_C3_counterexample :
    fx3_load_ram (encodeFx3 [(256, [7])] 0x9999) =
      (0, some 0x9999, [(256, 4)]) ∧
    (0x9999 : Nat) ≠ 256 ∧ (0x9999 : Nat) ≠ 256 + 4 := by
  decide

/-- C3 amended: for every FX3 image whose header, chunks and trailing
checksum are accepted, the final jump-to-entry vendor command targets the
address field carried by the terminating zero-length chunk (the image's
entry address), which need not be the last-written address. -/
theorem claim_C3_jump_targets_terminator_address :
    ∀ (chunks : List (Nat × List Nat)) (entry : Nat),
      fx3ChunksWF chunks → entry < U32 →
      (fx3_load_ram (encodeFx3 chunks entry)).1 = 0 ∧
      (fx3_load_ram (encodeFx3 chunks entry)).2.1 = some entry := by
  intro chunks entry hwf hentry
  have hK : fx3cks chunks < U32 := by
    simp only [fx3cks]
    exact foldU32_lt _ 0 (by simp [U32])
  obtain ⟨ws', hres⟩ := fx3_loop_go_encode chunks
    ((chunks.map encodeChunk).flatten ++ le32 0 ++ le32 entry ++
      le32 (fx3cks chunks)).length
    0 [] entry (fx3cks chunks) hwf hentry hK (le_refl _)
  have hcond :
      ((chunks.map (fun c => c.2)).flatten.foldl (fun a w => (a + w) % U32) 0) =
        fx3cks chunks := rfl
  rw [hcond, if_pos rfl] at hres
  simp only [encodeFx3, List.cons_append, List.nil_append, fx3_load_ram,
    fx3_loop]
  rw [if_pos (by norm_num)]
  rw [if_pos (by norm_num)]
  rw [hres]
  exact ⟨rfl, rfl⟩

/-- witness for C3 amended at a concrete one-chunk image. -/
theorem claim_C3_jump_targets_terminator_address_witness :
    (fx3_load_ram (encodeFx3 [(256, [7])] 0x9999)).1 = 0 ∧
    (fx3_load_ram (encodeFx3 [(256, [7])] 0x9999)).2.1 = some 0x9999 :=
  claim_C3_jump_targets_terminator_address [(256, [7])] 0x9999
    (by unfold fx3ChunksWF; decide) (by decide)

/-- C7: the FX2 classifier is a pure total function of (address, length):
a range starting at or below 0x1FFF, or starting in [0xE000, 0xE1FF], is
internal iff it does not extend past 0x2000 (resp. 0xE200); every other
range is external; with the four boundary cases 0x1FFF/1 internal,
0x1FFF/2 external, 0xE1FF/1 internal, 0xE200/1 external. -/
theorem claim_C7_fx2_classifier :
    (∀ addr len : Nat,
      (addr ≤ 0x1fff → (fx2_is_external addr len = false ↔ addr + len ≤ 0x2000)) ∧
      (0xe000 ≤ addr → addr ≤ 0xe1ff →
        (fx2_is_external addr len = false ↔ addr + len ≤ 0xe200)) ∧
      (0x1fff < addr → addr < 0xe000 ∨ 0xe1ff < addr →
        fx2_is_external addr len = true)) ∧
    fx2_is_external 0x1fff 1 = false ∧ fx2_is_external 0x1fff 2 = true ∧
    fx2_is_external 0xe1ff 1 = false ∧ fx2_is_external 0xe200 1 = true := by
  refine ⟨fun addr len => ⟨?_, ?_, ?_⟩, by decide, by decide, by decide, by decide⟩
  · intro h
    simp only [fx2_is_external, if_pos h]
    simp
  · intro h1 h2
    have hn : ¬addr ≤ 0x1fff := by omega
    simp only [fx2_is_external, if_neg hn, if_pos (And.intro h1 h2)]
    simp
  · intro h1 h2
    have hn : ¬addr ≤ 0x1fff := by omega
    have hn2 : ¬(0xe000 ≤ addr ∧ addr ≤ 0xe1ff) := by omega
    simp only [fx2_is_external, if_neg hn, if_neg hn2]

/-- witness for C7 at concrete inputs. -/
theorem claim_C7_fx2_classifier_witness :
    fx2_is_external 0x1000 0x1000 = false ∧ fx2_is_external 0x2500 1 = true :=
  ⟨(claim_C7_fx2_classifier.1 0x1000 0x1000).1 (by norm_num) |>.mpr (by norm_num),
    (claim_C7_fx2_classifier.1 0x2500 1).2.2 (by norm_num) (by norm_num)⟩

/-- C9: an I/O error on the single-byte CPUCS write is tolerated exactly
when resuming (doRun) the core; any other error, or a transfer count
other than 1, fails in both directions. -/
theorem claim_C9_cpucs_io_tolerated :
    ∀ status : Int,
      (status = LibusbErrorIo →
        ezusb_cpucs status true = true ∧ ezusb_cpucs status false = false) ∧
      (status ≠ 1 → status ≠ LibusbErrorIo →
        ezusb_cpucs status true = false ∧ ezusb_cpucs status false = false) ∧
      (0 ≤ status → status ≠ 1 →
        ezusb_cpucs status true = false ∧ ezusb_cpucs status false = false) := by
  intro status
  refine ⟨?_, ?_, ?_⟩
  · intro h
    subst h
    decide
  · intro h1 h2
    constructor <;> simp [ezusb_cpucs, h1, h2]
  · intro h0 h1
    have h2 : status ≠ LibusbErrorIo := by
      simp only [LibusbErrorIo]
      omega
    constructor <;> simp [ezusb_cpucs, h1, h2]

/-- witness for C9 at concrete inputs. -/
theorem claim_C9_cpucs_io_tolerated_witness :
    (ezusb_cpucs (-1) true = true ∧ ezusb_cpucs (-1) false = false) ∧
    (ezusb_cpucs (-7) true = false ∧ ezusb_cpucs (-7) false = false) ∧
    (ezusb_cpucs 0 true = false ∧ ezusb_cpucs 0 false = false) :=
  ⟨(claim_C9_cpucs_io_tolerated (-1)).1 (by decide),
    (claim_C9_cpucs_io_tolerated (-7)).2.1 (by decide) (by decide),
    (claim_C9_cpucs_io_tolerated 0).2.2 (by decide) (by decide)⟩

/-- C10: ezusb_write and ezusb_read return 0 whenever the transport status
is nonnegative — even a short transfer (status < len) is treated as
success — and return -Eio exactly when the status is negative. -/
theorem claim_C10_short_transfer_ok :
    ∀ (status : Int) (len : Nat),
      (0 ≤ status → ezusb_write status len = 0 ∧ ezusb_read status len = 0) ∧
      (status < 0 → ezusb_write status len = -Eio ∧ ezusb_read status len = -Eio) := by
  intro status len
  constructor
  · intro h
    constructor <;> simp [ezusb_write, ezusb_read] <;> omega
  · intro h
    constructor <;> simp [ezusb_write, ezusb_read, h]

/-- witness for C10: a transfer of 3 of 7 requested bytes is success, a
negative status is -Eio. -/
theorem claim_C10_short_transfer_ok_witness :
    (ezusb_write 3 7 = 0 ∧ ezusb_read 3 7 = 0) ∧
    (ezusb_write (-7) 7 = -Eio ∧ ezusb_read (-7) 7 = -Eio) :=
  ⟨(claim_C10_short_transfer_ok 3 7).1 (by decide),
    (claim_C10_short_transfer_ok (-7) 7).2 (by decide)⟩

/-- C6: mode gating of ram_poke — skip_internal drops internal segments
and skip_external drops external segments with success and zero transport
calls; internal_only rejects external segments with -EINVAL and zero
transport calls. -/
theorem claim_C6_mode_gating :
    ∀ (ctx : RamPokeContext) (addr len : Nat) (transport : Nat → Int),
      (ctx.mode = RamMode.skip_internal →
        ram_poke ctx addr false len transport = (0, ctx, 0)) ∧
      (ctx.mode = RamMode.skip_external →
        ram_poke ctx addr true len transport = (0, ctx, 0)) ∧
      (ctx.mode = RamMode.internal_only →
        ram_poke ctx addr true len transport = (-EINVAL, ctx, 0)) := by
  intro ctx addr len transport
  refine ⟨?_, ?_, ?_⟩ <;> intro h <;> simp [ram_poke, h]

/-- witness for C6 at concrete contexts. -/
theorem claim_C6_mode_gating_witness :
    ram_poke ⟨RamMode.skip_internal, 3, 4⟩ 0x100 false 16 (fun _ => -7) =
      (0, ⟨RamMode.skip_internal, 3, 4⟩, 0) ∧
    ram_poke ⟨RamMode.skip_external, 3, 4⟩ 0x100 true 16 (fun _ => -7) =
      (0, ⟨RamMode.skip_external, 3, 4⟩, 0) ∧
    ram_poke ⟨RamMode.internal_only, 3, 4⟩ 0x100 true 16 (fun _ => -7) =
      (-EINVAL, ⟨RamMode.internal_only, 3, 4⟩, 0) :=
  ⟨(claim_C6_mode_gating ⟨RamMode.skip_internal, 3, 4⟩ 0x100 16 (fun _ => -7)).1 rfl,
    (claim_C6_mode_gating ⟨RamMode.skip_external, 3, 4⟩ 0x100 16 (fun _ => -7)).2.1 rfl,
    (claim_C6_mode_gating ⟨RamMode.internal_only, 3, 4⟩ 0x100 16 (fun _ => -7)).2.2 rfl⟩

/-- C1 (code bug): a poke whose every control transfer times out performs
exactly one transfer attempt and fails with -Eio — not the five attempts
the retry design intends: ezusb_write collapses every negative status to
-Eio (ezusb.c line 142), so the `rc != LIBUSB_ERROR_TIMEOUT` retry guard
at line 555 can never see a timeout and always breaks on the first
failure, leaving RETRY_LIMIT dead. -/
theorem claim_C1_timeout_single_attempt :
    ram_poke ⟨RamMode.internal_only, 0, 0⟩ 0x100 false 16
        (fun _ => LIBUSB_ERROR_TIMEOUT) =
      (-Eio, ⟨RamMode.internal_only, 16, 1⟩, 1) ∧
    ram_poke ⟨RamMode.internal_only, 0, 0⟩ 0x100 false 16
        (fun _ => LibusbErrorIo) =
      (-Eio, ⟨RamMode.internal_only, 16, 1⟩, 1) := by
  decide

/-- C4 counterexample: a poke whose write fails returns -Eio yet has
already incremented total by len and count by one (ezusb.c lines 544-545
run before the write loop), contradicting the claim that an error leaves
both totals unchanged. -/
theorem claim_C4_counterexample :
    (ram_poke ⟨RamMode.internal_only, 0, 0⟩ 0x100 false 16
        (fun _ => LibusbErrorIo)).1 = -Eio ∧
    (ram_poke ⟨RamMode.internal_only, 0, 0⟩ 0x100 false 16
        (fun _ => LibusbErrorIo)).2.1 = ⟨RamMode.internal_only, 16, 1⟩ := by
  decide

/-- C4 amended: total and count are incremented (by len and one) for every
poke that passes the mode gate, before the write is attempted and whether
it succeeds or fails; pokes skipped or rejected by the mode gate leave the
context unchanged. -/
theorem claim_C4_totals_incremented_before_write :
    ∀ (ctx : RamPokeContext) (addr : Nat) (external : Bool) (len : Nat)
      (transport : Nat → Int),
      ((ctx.mode = RamMode.internal_only ∧ external = false) ∨
        (ctx.mode = RamMode.skip_internal ∧ external = true) ∨
        (ctx.mode = RamMode.skip_external ∧ external = false) →
        (ram_poke ctx addr external len transport).2.1.total = ctx.total + len ∧
        (ram_poke ctx addr external len transport).2.1.count = ctx.count + 1) ∧
      ((ctx.mode = RamMode.internal_only ∧ external = true) ∨
        (ctx.mode = RamMode.skip_internal ∧ external = false) ∨
        (ctx.mode = RamMode.skip_external ∧ external = true) ∨
        ctx.mode = RamMode.undef →
        (ram_poke ctx addr external len transport).2.1 = ctx) := by
  intro ctx addr external len transport
  constructor
  · rintro (⟨hm, he⟩ | ⟨hm, he⟩ | ⟨hm, he⟩) <;>
      subst he <;> simp [ram_poke, hm, ram_poke_write]
  · rintro (⟨hm, he⟩ | ⟨hm, he⟩ | ⟨hm, he⟩ | hm) <;>
      first
      | (subst he; simp [ram_poke, hm])
      | simp [ram_poke, hm]

/-- witness for C4 amended: a failing write still bumps the totals; a
skipped segment does not. -/
theorem claim_C4_totals_incremented_before_write_witness :
    ((ram_poke ⟨RamMode.internal_only, 0, 0⟩ 0x100 false 16
        (fun _ => -1)).2.1.total = 0 + 16 ∧
      (ram_poke ⟨RamMode.internal_only, 0, 0⟩ 0x100 false 16
        (fun _ => -1)).2.1.count = 0 + 1) ∧
    (ram_poke ⟨RamMode.skip_internal, 0, 0⟩ 0x100 false 16
        (fun _ => -1)).2.1 = ⟨RamMode.skip_internal, 0, 0⟩ :=
  ⟨(claim_C4_totals_incremented_before_write ⟨RamMode.internal_only, 0, 0⟩
      0x100 false 16 (fun _ => -1)).1 (Or.inl ⟨rfl, rfl⟩),
    (claim_C4_totals_incremented_before_write ⟨RamMode.skip_internal, 0, 0⟩
      0x100 false 16 (fun _ => -1)).2 (Or.inr (Or.inl ⟨rfl, rfl⟩))⟩

/-- C2 counterexample: for a two-stage IIC upload the phase-1 pass uses
the IIC parser selected by the dispatch table, but the phase-2 pass after
the rewind uses parse_ihex (hard-coded at ezusb.c line 811), a different
parser. -/
theorem claim_C2_counterexample :
    load_ram_passes 1 1 =
      [(some ParserId.iic, RamMode.skip_internal),
        (some ParserId.ihex, RamMode.skip_external)] ∧
    some ParserId.ihex ≠ parse_dispatch 1 := by
  decide

/-- C2 amended: for every two-stage upload the phase-2 pass after the
rewind always re-parses with the Intel HEX parser, whatever the image
type; it coincides with the parser selected by the image-type dispatch for
phase 1 exactly when the image type is HEX (0). -/
theorem claim_C2_phase2_always_ihex :
    ∀ (img_type : Nat) (stage : Int), stage ≠ 0 →
      load_ram_passes img_type stage =
        [(parse_dispatch img_type, RamMode.skip_internal),
          (some ParserId.ihex, RamMode.skip_external)] ∧
      (parse_dispatch img_type = some ParserId.ihex ↔ img_type = 0) := by
  intro img_type stage h
  constructor
  · simp [load_ram_passes, h]
  · match img_type with
    | 0 => simp [parse_dispatch]
    | 1 => simp [parse_dispatch]
    | 2 => simp [parse_dispatch]
    | n + 3 => simp [parse_dispatch]

/-- witness for C2 amended at a two-stage IIC upload. -/
theorem claim_C2_phase2_always_ihex_witness :
    load_ram_passes 1 1 =
      [(parse_dispatch 1, RamMode.skip_internal),
        (some ParserId.ihex, RamMode.skip_external)] ∧
      (parse_dispatch 1 = some ParserId.ihex ↔ (1 : Nat) = 0) :=
  claim_C2_phase2_always_ihex 1 1 (by decide)

end Ezusb
